import Mathlib

/-!
Shallow embedding of `src/main.rs` of the zshard repository.

The program has two operations:

* `shard_file (source, target_dir, max_size)` reads the source file in blocks
  of at most `max_size` bytes and writes block `i` to a file named
  `shard_{:04}` (decimal index, zero-padded to a minimum width of 4) inside
  `target_dir`.
* `reconstruct_file (shard_dir, output)` creates/truncates `output`, lists
  `shard_dir`, keeps the entries whose filename starts with `shard_`, sorts
  them by filename (byte-wise lexicographic order, via a stable sort), and
  appends each entry's contents to the output in that order.

Files and filenames are modelled as lists of natural numbers (their bytes).
The loops are modelled as fuel-indexed structural recursions so that all
definitions compute by kernel reduction.
-/

namespace ZShard

/-- Bytes of the fixed filename tag `"shard_"` used by both operations
(`s h a r d _`). -/
def shardTag : List Nat := [115, 104, 97, 114, 100, 95]

/-- Byte-list model of `str::starts_with`: does `l` start with the bytes `p`?
Used by `reconstruct_file`'s filter `file_name().to_string_lossy().starts_with("shard_")`. -/
def listStartsWith : List Nat → List Nat → Bool
  | [], _ => true
  | _ :: _, [] => false
  | p :: ps, x :: xs => if p = x then listStartsWith ps xs else false

/-- Byte-wise lexicographic (non-strict) order on byte lists: the order Rust's
`sort_by_key(|entry| entry.file_name())` sorts by (`OsString` compares its bytes
lexicographically, a proper prefix coming first). -/
def lexLe : List Nat → List Nat → Bool
  | [], _ => true
  | _ :: _, [] => false
  | a :: as, b :: bs => if a < b then true else if a = b then lexLe as bs else false

/-- Byte-wise lexicographic strict order on byte lists. -/
def lexLt : List Nat → List Nat → Bool
  | [], [] => false
  | [], _ :: _ => true
  | _ :: _, [] => false
  | a :: as, b :: bs => if a < b then true else if a = b then lexLt as bs else false

/-- Decimal digits of `n`, most significant first (fuel-indexed so that it is
structurally recursive; `decDigits` supplies enough fuel). -/
def decDigitsGo : Nat → Nat → List Nat
  | 0, _ => []
  | fuel + 1, n => if n < 10 then [n] else decDigitsGo fuel (n / 10) ++ [n % 10]

/-- Decimal digits of `n`, most significant first. -/
def decDigits (n : Nat) : List Nat := decDigitsGo (n + 1) n

/-- Left-pad a digit list with zeros to a minimum length of 4: the `{:04}`
format specifier of `format!("shard_{:04}", part)`. -/
def pad4 (ds : List Nat) : List Nat := List.replicate (4 - ds.length) 0 ++ ds

/-- Bytes of the filename `format!("shard_{:04}", i)`: the tag `"shard_"`
followed by the ASCII digits (`d ↦ d + 48`) of `i`, zero-padded to a minimum
width of 4. -/
def shardName (i : Nat) : List Nat :=
  shardTag ++ (pad4 (decDigits i)).map (fun d => d + 48)

/-- The read/write loop of `shard_file` (src/main.rs lines 54-65), with the
running shard index `part` and the remaining unread bytes `data` explicit.
Each `reader.read(&mut buffer)` into the `max_size`-byte buffer returns
`bytes_read = min s data.length` bytes; the loop breaks when that is zero,
and otherwise writes those bytes to a file named `shardName part` and
continues with `part + 1`. The fuel argument makes the recursion structural;
`shardPairs` supplies enough fuel. -/
def shardLoopGo (s : Nat) : Nat → Nat → List Nat → List (List Nat × List Nat)
  | 0, _, _ => []
  | fuel + 1, part, data =>
    if min s data.length = 0 then []
    else (shardName part, data.take s) :: shardLoopGo s fuel (part + 1) (data.drop s)

/-- The list of (filename, contents) pairs `shard_file` writes into the target
directory when the source file holds the bytes `data` and the maximum shard
size is `s`. -/
def shardPairs (data : List Nat) (s : Nat) : List (List Nat × List Nat) :=
  shardLoopGo s (data.length + 1) 0 data

/-- Order on directory entries (filename, contents) by filename, as used by
`shards.sort_by_key(|entry| entry.file_name())`. -/
def entryLe (a b : List Nat × List Nat) : Prop := lexLe a.1 b.1 = true

instance : DecidableRel entryLe :=
  fun a b => inferInstanceAs (Decidable (lexLe a.1 b.1 = true))

/-- The bytes `reconstruct_file` writes to the output file given the directory
snapshot `dir` (a list of (filename, contents) pairs), on the all-reads-succeed
path: filter to filenames starting with `"shard_"`, stable-sort by filename,
concatenate contents in that order. Rust's `sort_by_key` is a stable sort, so
it is modelled by insertion sort with the by-filename order. -/
def reconstructBytes (dir : List (List Nat × List Nat)) : List Nat :=
  (((dir.filter (fun e => listStartsWith shardTag e.1)).insertionSort entryLe).map
    (fun e => e.2)).flatten

/-- A directory entry as `reconstruct_file` sees it: its filename bytes and
the outcome of `File::open` + `read_to_end` on it (an unreadable shard makes
the whole operation abort with that error). -/
structure DirEntry where
  name : List Nat
  content : Except Unit (List Nat)

/-- Order on directory entries by filename, for `sort_by_key(|e| e.file_name())`. -/
def dirEntryLe (a b : DirEntry) : Prop := lexLe a.name b.name = true

instance : DecidableRel dirEntryLe :=
  fun a b => inferInstanceAs (Decidable (lexLe a.name b.name = true))

/-- The filesystem context of one `reconstruct_file` invocation:
`priorOut` is the output file's state before the call (`none` if absent),
`createOk` is whether `File::create(output)` succeeds, and `listing` is the
outcome of `read_dir(shard_dir)` — an error if the directory cannot be listed,
otherwise the entries in the order the OS yields them, each possibly an error
itself (such entries are dropped by `.filter_map(|entry| entry.ok())`). -/
structure ReconEnv where
  priorOut : Option (List Nat)
  createOk : Bool
  listing : Except Unit (List (Except Unit DirEntry))

/-- The read/append loop of `reconstruct_file` (src/main.rs lines 88-95) over
the sorted shard list: returns the output file's byte content together with
the operation's result, aborting at the first shard whose open/read fails
(the bytes appended so far stay in the output file). -/
def readShards : List DirEntry → List Nat → Option (List Nat) × Except Unit Unit
  | [], acc => (some acc, Except.ok ())
  | e :: rest, acc =>
    match e.content with
    | Except.error _ => (some acc, Except.error ())
    | Except.ok c => readShards rest (acc ++ c)

/-- Operational model of `reconstruct_file` (src/main.rs lines 70-98): create
(truncate) the output file first, then list the shard directory, drop
unreadable entries, keep names starting with `"shard_"`, stable-sort by name,
and append each shard's bytes. The first component is the output file's state
after the call, the second the function's `io::Result`. -/
def reconstructOp (env : ReconEnv) : Option (List Nat) × Except Unit Unit :=
  if env.createOk then
    match env.listing with
    | Except.error _ => (some [], Except.error ())
    | Except.ok raw =>
      readShards
        (((raw.filterMap (fun x => x.toOption)).filter
          (fun e => listStartsWith shardTag e.name)).insertionSort dirEntryLe) []
  else (env.priorOut, Except.error ())

/-- The filesystem context of one `shard_file` invocation: `src` is the
outcome of `File::open(source)` together with the source bytes the reads will
deliver, and `mkdirOk` is whether `create_dir_all(target_dir)` succeeds. -/
structure ShardEnv where
  src : Except Unit (List Nat)
  mkdirOk : Bool

/-- Observable outcome of `shard_file`: whether the target directory was
created, the (filename, contents) pairs written, and the `io::Result`. -/
structure ShardOutcome where
  dirCreated : Bool
  shards : List (List Nat × List Nat)
  result : Except Unit Unit

/-- Operational model of `shard_file` (src/main.rs lines 42-68): it opens the
source file first (line 47) and only then calls `create_dir_all` (line 52);
if the open fails, that error is returned before any filesystem mutation. On
the success path the loop writes `shardPairs data maxSize`. -/
def shardOp (env : ShardEnv) (maxSize : Nat) : ShardOutcome :=
  match env.src with
  | Except.error _ => ⟨false, [], Except.error ()⟩
  | Except.ok data =>
    if env.mkdirOk then ⟨true, shardPairs data maxSize, Except.ok ()⟩
    else ⟨false, [], Except.error ()⟩

/-!
The `part` counter of `shard_file` is an inferred `i32`
(`let mut part = 0; … part += 1;`), not an unbounded natural: `shardPairs`
above matches the source only while the shard index stays in the `i32` range.
The definitions below model the counter faithfully past that range, under the
release-profile wrapping semantics of `part += 1` (a debug build instead
aborts with an overflow panic at the increment after shard 2147483647; either
way the unbounded count claim fails). They are used to refute the unbounded
version of the shard-count claim.
-/

/-- Two's-complement value of the `i32` counter `part` on the `k`-th loop
iteration (0-based) under wrapping arithmetic: `part` starts at 0 and is
incremented once per shard written, wrapping modulo `2^32` into
`[-2^31, 2^31)`. -/
def partI32 (k : Nat) : Int :=
  (k % 2 ^ 32 : Int) - (if k % 2 ^ 32 < 2 ^ 31 then 0 else 2 ^ 32)

/-- Digit list zero-padded on the left to a minimum width `w`. -/
def padTo (w : Nat) (ds : List Nat) : List Nat :=
  List.replicate (w - ds.length) 0 ++ ds

/-- Bytes of `format!("shard_{:04}", v)` for a signed `v : i32` value: for
`v ≥ 0` this is `shardName v`; for `v < 0` the minus sign (byte 45) counts
toward the width, so the digits of `|v|` are zero-padded to width 3 after
the sign. -/
def shardNameI32 (v : Int) : List Nat :=
  if v < 0 then shardTag ++ (45 :: (padTo 3 (decDigits v.natAbs)).map (fun d => d + 48))
  else shardName v.toNat

/-- The sequence of filenames `shard_file` passes to `File::create`, one per
non-empty read, with the `i32` counter modelled faithfully (wrapping): `k` is
the iteration count so far, `len` the number of unread source bytes; `s` is
the maximum shard size. Fuel-indexed like `shardLoopGo`. -/
def shardWritesI32 (s : Nat) : Nat → Nat → Nat → List (List Nat)
  | 0, _, _ => []
  | fuel + 1, k, len =>
    if min s len = 0 then []
    else shardNameI32 (partI32 k) :: shardWritesI32 s fuel (k + 1) (len - s)

/-- Number of distinct files in the target directory after sharding a source
of `len` bytes with maximum shard size `s`: `File::create` on an already-used
name truncates that file, so colliding names leave a single file. -/
def fileCountI32 (s len : Nat) : Nat :=
  ((shardWritesI32 s (len + 1) 0 len).dedup).length

end ZShard

namespace ZShard

/- Basic facts about the lexicographic order on byte lists. -/

theorem lexLe_cons (x y : Nat) (xs ys : List Nat) :
    lexLe (x :: xs) (y :: ys) = true ↔ (x < y ∨ (x = y ∧ lexLe xs ys = true)) := by
  simp only [lexLe]
  split_ifs with h1 h2 <;> simp_all

theorem lexLt_cons (x y : Nat) (xs ys : List Nat) :
    lexLt (x :: xs) (y :: ys) = true ↔ (x < y ∨ (x = y ∧ lexLt xs ys = true)) := by
  simp only [lexLt]
  split_ifs with h1 h2 <;> simp_all

theorem lexLe_refl (a : List Nat) : lexLe a a = true := by
  induction a with
  | nil => rfl
  | cons x xs ih => rw [lexLe_cons]; exact Or.inr ⟨rfl, ih⟩

theorem lexLt_lexLe {a b : List Nat} (h : lexLt a b = true) : lexLe a b = true := by
  induction a generalizing b with
  | nil => rfl
  | cons x xs ih =>
    cases b with
    | nil => simp [lexLt] at h
    | cons y ys =>
      rw [lexLt_cons] at h
      rw [lexLe_cons]
      rcases h with h | ⟨he, h⟩
      · exact Or.inl h
      · exact Or.inr ⟨he, ih h⟩

theorem lexLe_trans {a b c : List Nat} (hab : lexLe a b = true)
    (hbc : lexLe b c = true) : lexLe a c = true := by
  induction a generalizing b c with
  | nil => rfl
  | cons x xs ih =>
    cases b with
    | nil => simp [lexLe] at hab
    | cons y ys =>
      cases c with
      | nil => simp [lexLe] at hbc
      | cons z zs =>
        rw [lexLe_cons] at hab hbc ⊢
        rcases hab with h1 | ⟨he1, h1⟩ <;> rcases hbc with h2 | ⟨he2, h2⟩
        · exact Or.inl (h1.trans h2)
        · exact Or.inl (he2 ▸ h1)
        · exact Or.inl (he1 ▸ h2)
        · exact Or.inr ⟨he1.trans he2, ih h1 h2⟩

theorem lexLe_total (a b : List Nat) : lexLe a b = true ∨ lexLe b a = true := by
  induction a generalizing b with
  | nil => exact Or.inl rfl
  | cons x xs ih =>
    cases b with
    | nil => exact Or.inr rfl
    | cons y ys =>
      rw [lexLe_cons, lexLe_cons]
      rcases Nat.lt_trichotomy x y with h | h | h
      · exact Or.inl (Or.inl h)
      · rcases ih ys with h2 | h2
        · exact Or.inl (Or.inr ⟨h, h2⟩)
        · exact Or.inr (Or.inr ⟨h.symm, h2⟩)
      · exact Or.inr (Or.inl h)

theorem lexLe_antisymm {a b : List Nat} (hab : lexLe a b = true)
    (hba : lexLe b a = true) : a = b := by
  induction a generalizing b with
  | nil =>
    cases b with
    | nil => rfl
    | cons y ys => simp [lexLe] at hba
  | cons x xs ih =>
    cases b with
    | nil => simp [lexLe] at hab
    | cons y ys =>
      rw [lexLe_cons] at hab hba
      rcases hab with h1 | ⟨he1, h1⟩ <;> rcases hba with h2 | ⟨he2, h2⟩
      · omega
      · omega
      · omega
      · rw [he1, ih h1 h2]

theorem lexLt_of_le_of_ne {a b : List Nat} (hab : lexLe a b = true)
    (hne : a ≠ b) : lexLt a b = true := by
  induction a generalizing b with
  | nil =>
    cases b with
    | nil => exact absurd rfl hne
    | cons y ys => rfl
  | cons x xs ih =>
    cases b with
    | nil => simp [lexLe] at hab
    | cons y ys =>
      rw [lexLe_cons] at hab
      rw [lexLt_cons]
      rcases hab with h | ⟨he, h⟩
      · exact Or.inl h
      · refine Or.inr ⟨he, ih h ?_⟩
        intro hxs
        exact hne (by rw [he, hxs])

theorem lexLt_append {p a b : List Nat} :
    lexLt (p ++ a) (p ++ b) = lexLt a b := by
  induction p with
  | nil => rfl
  | cons x xs ih => simp [lexLt, ih]

theorem listStartsWith_append (p t : List Nat) :
    listStartsWith p (p ++ t) = true := by
  induction p with
  | nil => rfl
  | cons x xs ih => simp [listStartsWith, ih]

/- Decimal-digit lemmas: `decDigits` does not depend on the fuel, and on each
range of `n` it evaluates to the expected digit list. -/

theorem decDigitsGo_fuel {f1 f2 n : Nat} (h1 : n < f1) (h2 : n < f2) :
    decDigitsGo f1 n = decDigitsGo f2 n := by
  induction f1 generalizing f2 n with
  | zero => omega
  | succ f ih =>
    cases f2 with
    | zero => omega
    | succ g =>
      simp only [decDigitsGo]
      by_cases h : n < 10
      · simp [h]
      · simp only [h, if_false]
        exact congrArg (fun l => l ++ [n % 10]) (ih (by omega) (by omega))

theorem decDigits_lt10 {n : Nat} (h : n < 10) : decDigits n = [n] := by
  simp [decDigits, decDigitsGo, h]

theorem decDigits_step {n : Nat} (h : 10 ≤ n) :
    decDigits n = decDigits (n / 10) ++ [n % 10] := by
  show decDigitsGo (n + 1) n = _
  have hn : ¬n < 10 := by omega
  simp only [decDigitsGo, hn, if_false]
  rw [@decDigitsGo_fuel n (n / 10 + 1) (n / 10) (by omega) (by omega)]
  rfl

theorem decDigits_two {n : Nat} (h1 : 10 ≤ n) (h2 : n < 100) :
    decDigits n = [n / 10, n % 10] := by
  rw [decDigits_step h1, decDigits_lt10 (by omega)]
  rfl

theorem decDigits_three {n : Nat} (h1 : 100 ≤ n) (h2 : n < 1000) :
    decDigits n = [n / 100, n / 10 % 10, n % 10] := by
  rw [decDigits_step (by omega), decDigits_two (by omega) (by omega)]
  have : n / 10 / 10 = n / 100 := by omega
  rw [this]
  have : n / 10 % 10 = n / 10 % 10 := rfl
  rfl

theorem decDigits_four {n : Nat} (h1 : 1000 ≤ n) (h2 : n < 10000) :
    decDigits n = [n / 1000, n / 100 % 10, n / 10 % 10, n % 10] := by
  rw [decDigits_step (by omega), decDigits_three (by omega) (by omega)]
  have e1 : n / 10 / 100 = n / 1000 := by omega
  have e2 : n / 10 / 10 % 10 = n / 100 % 10 := by omega
  rw [e1, e2]
  rfl

theorem pad4_decDigits {n : Nat} (h : n < 10000) :
    pad4 (decDigits n) = [n / 1000, n / 100 % 10, n / 10 % 10, n % 10] := by
  by_cases h1 : n < 10
  · rw [decDigits_lt10 h1]
    simp [pad4, List.replicate]
    all_goals omega
  · by_cases h2 : n < 100
    · rw [decDigits_two (by omega) h2]
      simp [pad4, List.replicate]
      all_goals omega
    · by_cases h3 : n < 1000
      · rw [decDigits_three (by omega) h3]
        simp [pad4, List.replicate]
        all_goals omega
      · rw [decDigits_four (by omega) h]
        simp [pad4, List.replicate]

theorem lexLt_four {a1 a2 a3 a4 b1 b2 b3 b4 : Nat} :
    lexLt [a1, a2, a3, a4] [b1, b2, b3, b4] = true ↔
      (a1 < b1 ∨ (a1 = b1 ∧ (a2 < b2 ∨ (a2 = b2 ∧
        (a3 < b3 ∨ (a3 = b3 ∧ a4 < b4)))))) := by
  rw [lexLt_cons, lexLt_cons, lexLt_cons, lexLt_cons]
  simp [lexLt]

/-- Strict monotonicity of shard filenames in the index, as long as the index
stays below 10000 (4 decimal digits): the lexicographic filename order agrees
with the numeric index order there. -/
theorem shardName_lt {i j : Nat} (hij : i < j) (hj : j < 10000) :
    lexLt (shardName i) (shardName j) = true := by
  unfold shardName
  rw [lexLt_append]
  rw [pad4_decDigits (by omega), pad4_decDigits hj]
  simp only [List.map_cons, List.map_nil]
  rw [lexLt_four]
  omega

theorem shardName_le {i j : Nat} (hij : i ≤ j) (hj : j < 10000) :
    lexLe (shardName i) (shardName j) = true := by
  rcases Nat.eq_or_lt_of_le hij with h | h
  · rw [h]; exact lexLe_refl _
  · exact lexLt_lexLe (shardName_lt h hj)

theorem shardName_tag (i : Nat) : listStartsWith shardTag (shardName i) = true :=
  listStartsWith_append _ _

/- Lemmas on the sharding loop. -/

theorem shardLoopGo_nil (s fuel part : Nat) : shardLoopGo s fuel part [] = [] := by
  cases fuel with
  | zero => rfl
  | succ f => simp [shardLoopGo]

theorem shardLoopGo_fuel {s f1 f2 part : Nat} {data : List Nat}
    (h1 : data.length < f1) (h2 : data.length < f2) :
    shardLoopGo s f1 part data = shardLoopGo s f2 part data := by
  induction f1 generalizing f2 part data with
  | zero => omega
  | succ f ih =>
    cases f2 with
    | zero => omega
    | succ g =>
      simp only [shardLoopGo]
      by_cases h : min s data.length = 0
      · simp [h]
      · simp only [h, if_false]
        have hs : 1 ≤ s := by omega
        have hd : (data.drop s).length < f := by
          rw [List.length_drop]; omega
        have hd2 : (data.drop s).length < g := by
          rw [List.length_drop]; omega
        rw [ih hd hd2]

theorem shardPairs_eq_go {data : List Nat} {s fuel : Nat} (h : data.length < fuel) :
    shardPairs data s = shardLoopGo s fuel 0 data :=
  shardLoopGo_fuel (by omega) h

/-- The concatenation of the shard contents, in index order, is the source
file: the loop writes `take s` then recurses on `drop s`. -/
theorem shardLoopGo_flatten {s : Nat} (hs : 1 ≤ s) :
    ∀ {fuel} {data : List Nat} {part : Nat}, data.length < fuel →
      ((shardLoopGo s fuel part data).map (fun e => e.2)).flatten = data := by
  intro fuel
  induction fuel with
  | zero => omega
  | succ f ih =>
    intro data part h
    simp only [shardLoopGo]
    by_cases h0 : min s data.length = 0
    · have : data.length = 0 := by omega
      simp [h0, List.length_eq_zero.mp this]
    · simp only [h0, if_false, List.map_cons, List.flatten_cons]
      rw [ih (by rw [List.length_drop]; omega)]
      exact List.take_append_drop s data

/-- The number of shards is `⌈data.length / s⌉`, written `(L + s - 1) / s`. -/
theorem shardLoopGo_length {s : Nat} (hs : 1 ≤ s) :
    ∀ {fuel} {data : List Nat} {part : Nat}, data.length < fuel →
      (shardLoopGo s fuel part data).length = (data.length + s - 1) / s := by
  intro fuel
  induction fuel with
  | zero => omega
  | succ f ih =>
    intro data part h
    simp only [shardLoopGo]
    by_cases h0 : min s data.length = 0
    · have hl : data.length = 0 := by omega
      rw [if_pos h0, hl]
      simp [Nat.div_eq_of_lt (by omega : s - 1 < s)]
    · rw [if_neg h0]
      simp only [List.length_cons]
      rw [ih (by rw [List.length_drop]; omega)]
      rw [List.length_drop]
      rcases Nat.lt_or_ge data.length s with hlt | hge
      · have e1 : data.length - s = 0 := by omega
        rw [e1]
        have e2 : (0 + s - 1) / s = 0 := Nat.div_eq_of_lt (by omega)
        rw [e2]
        have e3 : (data.length + s - 1) / s = 1 := by
          apply Nat.div_eq_of_lt_le
          · omega
          · omega
        rw [e3]
      · have e1 : data.length - s + s - 1 = data.length - 1 := by omega
        have e2 : data.length + s - 1 = (data.length - 1) + s := by omega
        rw [e1, e2, Nat.add_div_right _ (by omega)]

/-- Every produced shard is named `shardName (part + k)` for some `k` below the
number of shards produced. -/
theorem shardLoopGo_name_mem {s : Nat} :
    ∀ {fuel} {data : List Nat} {part : Nat} {x : List Nat × List Nat},
      x ∈ shardLoopGo s fuel part data →
      ∃ k, x.1 = shardName (part + k) ∧ k < (shardLoopGo s fuel part data).length := by
  intro fuel
  induction fuel with
  | zero => intro data part x hx; simp [shardLoopGo] at hx
  | succ f ih =>
    intro data part x hx
    simp only [shardLoopGo] at hx ⊢
    by_cases h0 : min s data.length = 0
    · simp [h0] at hx
    · rw [if_neg h0] at hx ⊢
      rcases List.mem_cons.mp hx with h | h
      · exact ⟨0, by rw [h]; simp, by simp⟩
      · obtain ⟨k, hk1, hk2⟩ := ih h
        exact ⟨k + 1, by rw [hk1]; ring_nf, by simp; omega⟩

/-- As long as at most 10000 shards are ever named (all indices < 10000), the
produced list of shards is already sorted by filename. -/
theorem shardLoopGo_pairwise {s : Nat} :
    ∀ {fuel} {data : List Nat} {part : Nat}, data.length < fuel →
      part + (shardLoopGo s fuel part data).length ≤ 10000 →
      (shardLoopGo s fuel part data).Pairwise entryLe := by
  intro fuel
  induction fuel with
  | zero => omega
  | succ f ih
    =>
    intro data part h hbound
    simp only [shardLoopGo] at hbound ⊢
    by_cases h0 : min s data.length = 0
    · simp [h0]
    · rw [if_neg h0] at hbound ⊢
      simp only [List.length_cons] at hbound
      refine List.Pairwise.cons ?_ (ih (by rw [List.length_drop]; omega) (by omega))
      intro x hx
      obtain ⟨k, hk1, hk2⟩ := shardLoopGo_name_mem hx
      show lexLe _ x.1 = true
      rw [hk1]
      exact lexLt_lexLe (shardName_lt (by omega) (by omega))

theorem shardPairs_nil (s : Nat) : shardPairs [] s = [] :=
  shardLoopGo_nil s 1 0

theorem shardPairs_name_mem {data : List Nat} {s : Nat} {x : List Nat × List Nat}
    (hx : x ∈ shardPairs data s) :
    ∃ k, x.1 = shardName k ∧ k < (shardPairs data s).length := by
  obtain ⟨k, hk1, hk2⟩ := @shardLoopGo_name_mem s (data.length + 1) data 0 x hx
  exact ⟨k, by simpa using hk1, hk2⟩

theorem shardPairs_pairwise {data : List Nat} {s : Nat}
    (h : (shardPairs data s).length ≤ 10000) :
    (shardPairs data s).Pairwise entryLe :=
  shardLoopGo_pairwise (by omega) (by simpa using h)

theorem shardPairs_flatten {data : List Nat} {s : Nat} (hs : 1 ≤ s) :
    ((shardPairs data s).map (fun e => e.2)).flatten = data :=
  shardLoopGo_flatten hs (by omega)

theorem shardPairs_length {data : List Nat} {s : Nat} (hs : 1 ≤ s) :
    (shardPairs data s).length = (data.length + s - 1) / s :=
  shardLoopGo_length hs (by omega)

/-- Every shard except the last has exactly the maximum size: the loop only
recurses when the read was non-empty, and a non-final read fills the buffer. -/
theorem shardLoopGo_dropLast {s : Nat} (hs : 1 ≤ s) :
    ∀ {fuel} {data : List Nat} {part : Nat}, data.length < fuel →
      ∀ x ∈ (shardLoopGo s fuel part data).dropLast, x.2.length = s := by
  intro fuel
  induction fuel with
  | zero => omega
  | succ f ih =>
    intro data part h x hx
    simp only [shardLoopGo] at hx
    by_cases h0 : min s data.length = 0
    · simp [h0] at hx
    · rw [if_neg h0] at hx
      rcases htl : shardLoopGo s f (part + 1) (data.drop s) with _ | ⟨y, ys⟩
      · rw [htl] at hx
        simp at hx
      · rw [htl, List.dropLast_cons₂] at hx
        rcases List.mem_cons.mp hx with hh | hh
        · have hlen : s < data.length := by
            by_contra hle
            have : data.drop s = [] := List.drop_eq_nil_of_le (by omega)
            rw [this, shardLoopGo_nil] at htl
            exact List.noConfusion htl
          rw [hh]
          simp only [List.length_take]
          omega
        · rw [← htl] at hh
          exact ih (by rw [List.length_drop]; omega) x hh

/-- The last shard holds the remainder: `L mod s` bytes, or `s` when `s`
divides `L` exactly. -/
theorem shardLoopGo_getLast {s : Nat} (hs : 1 ≤ s) :
    ∀ {fuel} {data : List Nat} {part : Nat}, data.length < fuel → data ≠ [] →
      ∃ nm c, (shardLoopGo s fuel part data).getLast? = some (nm, c) ∧
        c.length = if data.length % s = 0 then s else data.length % s := by
  intro fuel
  induction fuel with
  | zero => omega
  | succ f ih =>
    intro data part h hne
    have hpos : 0 < data.length := List.length_pos.mpr hne
    have h0 : ¬min s data.length = 0 := by omega
    simp only [shardLoopGo, h0, if_false]
    by_cases hle : data.length ≤ s
    · have hdrop : data.drop s = [] := List.drop_eq_nil_of_le hle
      rw [hdrop, shardLoopGo_nil]
      refine ⟨shardName part, data.take s, by simp, ?_⟩
      rw [List.take_of_length_le hle]
      by_cases hmod : data.length % s = 0
      · rw [if_pos hmod]
        have hdvd : s ∣ data.length := Nat.dvd_of_mod_eq_zero hmod
        have := Nat.le_of_dvd hpos hdvd
        omega
      · rw [if_neg hmod]
        have hlt : data.length < s := by
          rcases Nat.lt_or_eq_of_le hle with h1 | h1
          · exact h1
          · exact absurd (h1 ▸ Nat.mod_self s) hmod
        rw [Nat.mod_eq_of_lt hlt]
    · have hne2 : data.drop s ≠ [] := by
        intro hcon
        have := List.drop_eq_nil_iff.mp hcon
        omega
      obtain ⟨nm, c, hlast, hlen⟩ := @ih (data.drop s) (part + 1)
        (by rw [List.length_drop]; omega) hne2
      have hmods : (data.drop s).length % s = data.length % s := by
        rw [List.length_drop]
        have h1 : data.length - s + s = data.length := by omega
        calc (data.length - s) % s = (data.length - s + s) % s :=
              (Nat.add_mod_right _ _).symm
          _ = data.length % s := by rw [h1]
      rw [hmods] at hlen
      refine ⟨nm, c, ?_, hlen⟩
      rcases htl : shardLoopGo s f (part + 1) (data.drop s) with _ | ⟨y, ys⟩
      · rw [htl] at hlast
        simp at hlast
      · rw [htl] at hlast
        rw [List.getLast?_cons_cons]
        exact hlast

theorem readShards_isSome (l : List DirEntry) (acc : List Nat) :
    ((readShards l acc).1).isSome = true := by
  induction l generalizing acc with
  | nil => rfl
  | cons e rest ih =>
    simp only [readShards]
    cases e.content with
    | error u => rfl
    | ok c => exact ih (acc ++ c)

/- Lemmas on the i32-faithful write sequence. -/

/-- The write sequence is the naming function mapped over the iteration
indices `k, k+1, …`, one per needed shard. -/
theorem shardWritesI32_eq {s : Nat} (hs : 1 ≤ s) :
    ∀ {fuel len k : Nat}, len < fuel →
      shardWritesI32 s fuel k len =
        (List.range' k ((len + s - 1) / s)).map (fun j => shardNameI32 (partI32 j)) := by
  intro fuel
  induction fuel with
  | zero => omega
  | succ f ih =>
    intro len k h
    simp only [shardWritesI32]
    by_cases h0 : min s len = 0
    · have hl : len = 0 := by omega
      rw [if_pos h0, hl]
      have hz : (0 + s - 1) / s = 0 := Nat.div_eq_of_lt (by omega)
      rw [hz]
      rfl
    · rw [if_neg h0]
      rw [ih (by omega : len - s < f)]
      have hm : (len + s - 1) / s = (len - s + s - 1) / s + 1 := by
        rcases Nat.lt_or_ge len s with hlt | hge
        · have e1 : len - s = 0 := by omega
          rw [e1]
          have e2 : (0 + s - 1) / s = 0 := Nat.div_eq_of_lt (by omega)
          rw [e2]
          apply Nat.div_eq_of_lt_le <;> omega
        · have e1 : len - s + s - 1 = len - 1 := by omega
          have e2 : len + s - 1 = (len - 1) + s := by omega
          rw [e1, e2, Nat.add_div_right _ (by omega)]
      rw [hm, List.range'_succ]
      simp

/-- A list with a duplicate dedups to something strictly shorter. -/
theorem dedup_length_lt_of_not_nodup {α : Type} [DecidableEq α] {l : List α}
    (h : ¬l.Nodup) : l.dedup.length < l.length := by
  have hsub := List.dedup_sublist l
  rcases Nat.lt_or_ge l.dedup.length l.length with hlt | hge
  · exact hlt
  · exfalso
    have heq : l.dedup = l :=
      hsub.eq_of_length (Nat.le_antisymm hsub.length_le hge)
    exact h (heq ▸ List.nodup_dedup l)

/- The claims. -/

/-- C1: for every source file `data` and every shard size `s ≥ 1` such that
sharding produces at most 9999 shards, reconstructing the directory produced by
`shard_file` yields the source file byte-for-byte. -/
theorem shard_reconstruct_roundtrip (data : List Nat) (s : Nat) (hs : 1 ≤ s)
    (hc : (shardPairs data s).length ≤ 9999) :
    reconstructBytes (shardPairs data s) = data := by
  unfold reconstructBytes
  have hall : ∀ e ∈ shardPairs data s, listStartsWith shardTag e.1 = true := by
    intro e he
    obtain ⟨k, hk1, _⟩ := shardPairs_name_mem he
    rw [hk1]
    exact shardName_tag k
  rw [List.filter_eq_self.mpr hall]
  have hsorted : (shardPairs data s).Pairwise entryLe := shardPairs_pairwise (by omega)
  rw [List.Sorted.insertionSort_eq hsorted]
  exact shardPairs_flatten hs

theorem shard_reconstruct_roundtrip_witness :
    1 ≤ 2 ∧ (shardPairs [10, 20, 30] 2).length ≤ 9999 ∧
      reconstructBytes (shardPairs [10, 20, 30] 2) = [10, 20, 30] :=
  ⟨by decide, by decide, shard_reconstruct_roundtrip [10, 20, 30] 2 (by decide) (by decide)⟩

/-- C2 (counterexample to the unbounded claim): the claim quantifies over all
file lengths, but the shard index `part` is an inferred `i32`. With max shard
size 1 and a source of `2^32 + 1` bytes, `⌈L / S⌉ = 2^32 + 1`, yet under the
wrapping `i32` semantics the counter returns to 0 on iteration `2^32`, so
`format!("shard_{:04}", part)` reuses the filename of shard 0, `File::create`
truncates that existing file, and the directory ends with strictly fewer than
`⌈L / S⌉` files. (A debug build fails the claim even earlier, panicking at the
increment after shard 2147483647.) -/
theorem shard_count_overflow_cex :
    shardNameI32 (partI32 (2 ^ 32)) = shardNameI32 (partI32 0) ∧
    fileCountI32 1 (2 ^ 32 + 1) < (2 ^ 32 + 1 + 1 - 1) / 1 := by
  have hcol : shardNameI32 (partI32 (2 ^ 32)) = shardNameI32 (partI32 0) := by decide
  refine ⟨hcol, ?_⟩
  unfold fileCountI32
  rw [shardWritesI32_eq (by omega) (by omega)]
  have hm : (2 ^ 32 + 1 + 1 - 1) / 1 = 2 ^ 32 + 1 := by norm_num
  rw [hm]
  have hnotnodup :
      ¬((List.range' 0 (2 ^ 32 + 1)).map (fun j => shardNameI32 (partI32 j))).Nodup := by
    intro hnd
    have hpw := (List.pairwise_map).mp hnd
    have hsymm : Symmetric fun a b : Nat =>
        shardNameI32 (partI32 a) ≠ shardNameI32 (partI32 b) :=
      fun a b h e => h e.symm
    have h0m : (0 : Nat) ∈ List.range' 0 (2 ^ 32 + 1) := by
      rw [List.mem_range'_1]; omega
    have h1m : (2 ^ 32 : Nat) ∈ List.range' 0 (2 ^ 32 + 1) := by
      rw [List.mem_range'_1]; omega
    exact hpw.forall hsymm h0m h1m (by omega) hcol.symm
  calc ((List.range' 0 (2 ^ 32 + 1)).map (fun j => shardNameI32 (partI32 j))).dedup.length
      < ((List.range' 0 (2 ^ 32 + 1)).map (fun j => shardNameI32 (partI32 j))).length :=
        dedup_length_lt_of_not_nodup hnotnodup
    _ = 2 ^ 32 + 1 := by simp

/-- C2 (amended): for every source file and every max shard size `s ≥ 1`,
provided the shard count stays within the `i32` range of the source's `part`
counter (at most `2^31 - 1` shards, where the `Nat` index of the model agrees
with the `i32` of the code), `shard_file` produces exactly
`⌈L / s⌉` = `(L + s - 1) / s` shards (0 when `L = 0`), every shard except the
last has exactly `s` bytes, and the last (when the file is non-empty) has
`L mod s` bytes, or `s` bytes when `s` divides `L` exactly. -/
theorem shard_count_and_sizes (data : List Nat) (s : Nat) (hs : 1 ≤ s)
    (_hc : (shardPairs data s).length ≤ 2 ^ 31 - 1) :
    (shardPairs data s).length = (data.length + s - 1) / s ∧
    (∀ x ∈ (shardPairs data s).dropLast, x.2.length = s) ∧
    (data ≠ [] → ∃ nm c, (shardPairs data s).getLast? = some (nm, c) ∧
      c.length = if data.length % s = 0 then s else data.length % s) := by
  refine ⟨shardPairs_length hs, ?_, ?_⟩
  · intro x hx
    exact shardLoopGo_dropLast hs (by omega) x hx
  · intro hne
    exact shardLoopGo_getLast hs (by omega) hne

theorem shard_count_and_sizes_witness :
    1 ≤ 2 ∧ (shardPairs [5, 6, 7, 8] 2).length ≤ 2 ^ 31 - 1 ∧
    ((shardPairs [5, 6, 7, 8] 2).length = ([5, 6, 7, 8].length + 2 - 1) / 2 ∧
     (∀ x ∈ (shardPairs [5, 6, 7, 8] 2).dropLast, x.2.length = 2) ∧
     ([5, 6, 7, 8] ≠ ([] : List Nat) → ∃ nm c,
        (shardPairs [5, 6, 7, 8] 2).getLast? = some (nm, c) ∧
        c.length = if [5, 6, 7, 8].length % 2 = 0 then 2 else [5, 6, 7, 8].length % 2)) :=
  ⟨by decide, by decide, shard_count_and_sizes [5, 6, 7, 8] 2 (by decide) (by decide)⟩

/-- C3 (counterexample): for a non-existent shard directory, `read_dir` fails
and `reconstruct_file` propagates that error (`?` on line 76) instead of
returning success; the claim that an empty, non-existent or no-match directory
always yields success is therefore false at this input (the output file does
get created empty, but the call errors). -/
theorem reconstruct_missing_dir_errors :
    (reconstructOp ⟨none, true, Except.error ()⟩).2 = Except.error () ∧
    (Except.error () : Except Unit Unit) ≠ Except.ok () :=
  ⟨rfl, fun h => Except.noConfusion h⟩

/-- C3 (amended): for a directory that can be listed but holds no entry whose
filename starts with `"shard_"`, `reconstruct_file` returns success with a
zero-length output file; for a directory that cannot be listed (e.g. it does
not exist) it returns the listing error, while the output file is still
created zero-length. -/
theorem reconstruct_no_match_empty_output (env : ReconEnv) (hc : env.createOk = true) :
    (∀ l, env.listing = Except.ok l →
      (∀ e ∈ l.filterMap (fun x => x.toOption), listStartsWith shardTag e.name = false) →
      reconstructOp env = (some [], Except.ok ())) ∧
    (env.listing = Except.error () → reconstructOp env = (some [], Except.error ())) := by
  constructor
  · intro l hl hnone
    simp only [reconstructOp, hc, if_true, hl]
    have hnil : (l.filterMap (fun x => x.toOption)).filter
        (fun e => listStartsWith shardTag e.name) = [] := by
      apply List.filter_eq_nil_iff.mpr
      intro e he
      simp [hnone e he]
    rw [hnil]
    rfl
  · intro hl
    simp [reconstructOp, hc, hl]

theorem reconstruct_no_match_empty_output_witness :
    (⟨none, true, Except.ok []⟩ : ReconEnv).createOk = true ∧
    reconstructOp ⟨none, true, Except.ok []⟩ = (some [], Except.ok ()) :=
  ⟨rfl, (reconstruct_no_match_empty_output ⟨none, true, Except.ok []⟩ rfl).1 []
    rfl (by simp)⟩

/-- C4: past the 4-digit boundary the zero-padded filenames stop sorting in
ascending numeric index order: the name `format!("shard_{:04}", 10000)` is the
un-truncated `"shard_10000"`, it is lexicographically strictly before
`"shard_9999"`, and the reconstructor's by-filename sort therefore places
shard 10000 before shard 9999. -/
theorem shard_overflow_filenames_misorder :
    shardName 10000 = shardTag ++ [49, 48, 48, 48, 48] ∧
    lexLt (shardName 10000) (shardName 9999) = true ∧
    List.insertionSort entryLe [(shardName 9999, [1]), (shardName 10000, [2])] =
      [(shardName 10000, [2]), (shardName 9999, [1])] :=
  ⟨by decide, by decide, by decide⟩

/-- C5: the 10-byte file `"0123456789"` (bytes 48..57) sharded with max size 3
produces exactly `shard_0000`="012", `shard_0001`="345", `shard_0002`="678",
`shard_0003`="9" (filenames spelled as their bytes), and reconstructing that
directory yields `"0123456789"` again. -/
theorem shard_ten_bytes_concrete :
    shardPairs [48, 49, 50, 51, 52, 53, 54, 55, 56, 57] 3 =
      [([115, 104, 97, 114, 100, 95, 48, 48, 48, 48], [48, 49, 50]),
       ([115, 104, 97, 114, 100, 95, 48, 48, 48, 49], [51, 52, 53]),
       ([115, 104, 97, 114, 100, 95, 48, 48, 48, 50], [54, 55, 56]),
       ([115, 104, 97, 114, 100, 95, 48, 48, 48, 51], [57])] ∧
    reconstructBytes (shardPairs [48, 49, 50, 51, 52, 53, 54, 55, 56, 57] 3) =
      [48, 49, 50, 51, 52, 53, 54, 55, 56, 57] :=
  ⟨by decide, by decide⟩

/-- C6: the bytes produced by reconstruction depend only on the directory's
entries (filenames and contents), not on the order the listing yields them:
for any two listings of the same directory (permutations of each other, with
distinct filenames as in a real directory), the output bytes coincide. -/
theorem reconstruct_order_independent (l1 l2 : List (List Nat × List Nat))
    (hp : l1.Perm l2) (hnd : (l1.map Prod.fst).Nodup) :
    reconstructBytes l1 = reconstructBytes l2 := by
  unfold reconstructBytes
  have hf : (l1.filter (fun e => listStartsWith shardTag e.1)).Perm
      (l2.filter (fun e => listStartsWith shardTag e.1)) := hp.filter _
  have hsub : ((l1.filter (fun e => listStartsWith shardTag e.1)).map Prod.fst).Sublist
      (l1.map Prod.fst) := (List.filter_sublist l1).map Prod.fst
  have hnd1 : ((l1.filter (fun e => listStartsWith shardTag e.1)).map Prod.fst).Nodup :=
    List.Nodup.sublist hsub hnd
  have hnd2 : ((l2.filter (fun e => listStartsWith shardTag e.1)).map Prod.fst).Nodup :=
    ((hf.map Prod.fst).nodup_iff).mp hnd1
  suffices hss : (l1.filter (fun e => listStartsWith shardTag e.1)).insertionSort entryLe =
      (l2.filter (fun e => listStartsWith shardTag e.1)).insertionSort entryLe by
    rw [hss]
  haveI : IsTrans (List Nat × List Nat) entryLe := ⟨fun _ _ _ => lexLe_trans⟩
  haveI : IsTotal (List Nat × List Nat) entryLe := ⟨fun a b => lexLe_total a.1 b.1⟩
  have hs1 := List.sorted_insertionSort entryLe (l1.filter (fun e => listStartsWith shardTag e.1))
  have hs2 := List.sorted_insertionSort entryLe (l2.filter (fun e => listStartsWith shardTag e.1))
  have hperm2 := (List.perm_insertionSort entryLe
      (l1.filter (fun e => listStartsWith shardTag e.1))).trans
    (hf.trans (List.perm_insertionSort entryLe
      (l2.filter (fun e => listStartsWith shardTag e.1))).symm)
  have hstrict : ∀ m : List (List Nat × List Nat), m.Pairwise entryLe →
      (m.map Prod.fst).Nodup →
      m.Pairwise (fun a b => entryLe a b ∧ a.1 ≠ b.1) := by
    intro m hsor hnod
    exact hsor.and ((List.pairwise_map).mp hnod)
  have hn1 : (((l1.filter (fun e => listStartsWith shardTag e.1)).insertionSort
      entryLe).map Prod.fst).Nodup :=
    (((List.perm_insertionSort entryLe _).map Prod.fst).nodup_iff).mpr hnd1
  have hn2 : (((l2.filter (fun e => listStartsWith shardTag e.1)).insertionSort
      entryLe).map Prod.fst).Nodup :=
    (((List.perm_insertionSort entryLe _).map Prod.fst).nodup_iff).mpr hnd2
  haveI : IsAntisymm (List Nat × List Nat) (fun a b => entryLe a b ∧ a.1 ≠ b.1) :=
    ⟨fun a b h1 h2 => absurd (lexLe_antisymm h1.1 h2.1) h1.2⟩
  exact List.eq_of_perm_of_sorted hperm2 (hstrict _ hs1 hn1) (hstrict _ hs2 hn2)

theorem reconstruct_order_independent_witness :
    ([(shardName 1, [7]), (shardName 0, [8])] :
        List (List Nat × List Nat)).Perm [(shardName 0, [8]), (shardName 1, [7])] ∧
    (([(shardName 1, [7]), (shardName 0, [8])] :
        List (List Nat × List Nat)).map Prod.fst).Nodup ∧
    reconstructBytes [(shardName 1, [7]), (shardName 0, [8])] =
      reconstructBytes [(shardName 0, [8]), (shardName 1, [7])] :=
  ⟨by decide, by decide,
    reconstruct_order_independent [(shardName 1, [7]), (shardName 0, [8])]
      [(shardName 0, [8]), (shardName 1, [7])] (by decide) (by decide)⟩

/-- C7: for an empty source file the very first read returns zero bytes, the
loop terminates normally, and no shard file is created (the target directory
is still created, before the loop). -/
theorem empty_source_zero_shards (env : ShardEnv) (ms : Nat)
    (hsrc : env.src = Except.ok []) (hmk : env.mkdirOk = true) :
    (shardOp env ms).shards = [] ∧ (shardOp env ms).result = Except.ok () ∧
    (shardOp env ms).dirCreated = true := by
  have hN := shardPairs_nil ms
  simp [shardOp, hsrc, hmk, hN]

theorem empty_source_zero_shards_witness :
    (⟨Except.ok [], true⟩ : ShardEnv).src = Except.ok [] ∧
    (⟨Except.ok [], true⟩ : ShardEnv).mkdirOk = true ∧
    ((shardOp ⟨Except.ok [], true⟩ 4).shards = [] ∧
     (shardOp ⟨Except.ok [], true⟩ 4).result = Except.ok () ∧
     (shardOp ⟨Except.ok [], true⟩ 4).dirCreated = true) :=
  ⟨rfl, rfl, empty_source_zero_shards ⟨Except.ok [], true⟩ 4 rfl rfl⟩

/-- C8: reconstruction is deterministic in the directory state: two runs over
the same listing (whatever the output file's prior state on each run) produce
the same output bytes and the same result. -/
theorem reconstruct_deterministic (e1 e2 : ReconEnv) (hl : e1.listing = e2.listing)
    (h1 : e1.createOk = true) (h2 : e2.createOk = true) :
    reconstructOp e1 = reconstructOp e2 := by
  simp [reconstructOp, h1, h2, hl]

theorem reconstruct_deterministic_witness :
    (⟨none, true, Except.ok []⟩ : ReconEnv).listing =
      (⟨some [9], true, Except.ok []⟩ : ReconEnv).listing ∧
    reconstructOp ⟨none, true, Except.ok []⟩ =
      reconstructOp ⟨some [9], true, Except.ok []⟩ :=
  ⟨rfl, reconstruct_deterministic ⟨none, true, Except.ok []⟩
    ⟨some [9], true, Except.ok []⟩ rfl rfl rfl⟩

/-- C9: `shard_file` opens the source before touching the filesystem: when
`File::open(source)` fails, the error is returned with the target directory
not created and no shard written. -/
theorem shard_open_failure_no_side_effects (env : ShardEnv) (ms : Nat)
    (h : env.src = Except.error ()) :
    shardOp env ms = ⟨false, [], Except.error ()⟩ := by
  simp [shardOp, h]

theorem shard_open_failure_no_side_effects_witness :
    (⟨Except.error (), true⟩ : ShardEnv).src = Except.error () ∧
    shardOp ⟨Except.error (), true⟩ 4 = ⟨false, [], Except.error ()⟩ :=
  ⟨rfl, shard_open_failure_no_side_effects ⟨Except.error (), true⟩ 4 rfl⟩

/-- C10: `reconstruct_file` creates (truncates) the output file before listing
the directory: whenever the creation succeeds, the output file exists
afterwards — also on every error path — and its final state never depends on
its prior contents. -/
theorem reconstruct_truncates_output_first (env : ReconEnv)
    (hc : env.createOk = true) :
    ((reconstructOp env).1).isSome = true ∧
    (∀ p : Option (List Nat),
      reconstructOp ⟨p, env.createOk, env.listing⟩ = reconstructOp env) := by
  constructor
  · simp only [reconstructOp, hc, if_true]
    cases env.listing with
    | error u => rfl
    | ok raw => exact readShards_isSome _ _
  · intro p
    simp [reconstructOp, hc]

theorem reconstruct_truncates_output_first_witness :
    (⟨some [1, 2], true, Except.error ()⟩ : ReconEnv).createOk = true ∧
    (((reconstructOp ⟨some [1, 2], true, Except.error ()⟩).1).isSome = true ∧
     (∀ p : Option (List Nat),
       reconstructOp ⟨p, true, Except.error ()⟩ =
         reconstructOp ⟨some [1, 2], true, Except.error ()⟩)) :=
  ⟨rfl, reconstruct_truncates_output_first ⟨some [1, 2], true, Except.error ()⟩ rfl⟩

end ZShard
